import Mathlib

/-!
Verification of the circuit_sim MNA engine (src/circuit_sim) against its
natural-language specification.

The embedding is a shallow one over exact arithmetic (ℚ for the real-valued
linear system, ℝ only where the source uses math.pi):

* a terminal of a two-terminal component is either a live variable (an index
  into the Ax=b system, the result of the variable-name table lookup) or a
  fixed constant voltage, modelled by `Node`;
* the linear system `A, b` is modelled by total functions from indices to ℚ;
  the numpy in-place updates `A[r, c] += v`, `A[r, c] = v`, `b[r] += v`,
  `b[r] = v` and the whole-vector `b += v` become the functional updates
  `addToA`, `setA`, `addToB`, `setB`, `addToAllB`;
* each component's stamping methods from IComponent.py are translated
  statement by statement;
* the drivers of Circuit.py (the Newton loop of Circuit.solve, the loop of
  continue_transient_simulation) are translated with the linear-system
  contents held abstract, since the claims about them concern control flow,
  time stepping and recording only.
-/

namespace CircuitSim

/-- A resolved terminal of a component: either a live variable of the Ax=b
system (its index) or a fixed constant voltage.  This is the codomain of
IComponent.read_node1_and_node2_as_indices in IComponent.py. -/
inductive Node where
| var (idx : ℕ)
| const (v : ℚ)
deriving DecidableEq

/-- The real-scalar linear system Ax=b of ILinearSystem.py, with the matrix
and right-hand side as total functions on indices. -/
structure LinSystem where
A : ℕ → ℕ → ℚ
b : ℕ → ℚ

theorem LinSystem.ext {s t : LinSystem} (hA : s.A = t.A) (hb : s.b = t.b) :
    s = t := by
  cases s; cases t; cases hA; cases hb; rfl

/-- numpy `A[r, c] += v`. -/
def addToA (s : LinSystem) (r c : ℕ) (v : ℚ) : LinSystem :=
  { s with A := fun p q => s.A p q + (if p = r ∧ q = c then v else 0) }

/-- numpy `A[r, c] = v`. -/
def setA (s : LinSystem) (r c : ℕ) (v : ℚ) : LinSystem :=
  { s with A := fun p q => if p = r ∧ q = c then v else s.A p q }

/-- numpy `b[r] += v`. -/
def addToB (s : LinSystem) (r : ℕ) (v : ℚ) : LinSystem :=
  { s with b := fun p => s.b p + (if p = r then v else 0) }

/-- numpy `b[r] = v`. -/
def setB (s : LinSystem) (r : ℕ) (v : ℚ) : LinSystem :=
  { s with b := fun p => if p = r then v else s.b p }

/-- numpy `b += v` on the whole vector: every entry of b is incremented.
Used by the DC branch of L.apply_component_only_stamps in IComponent.py
(lines 686 and 691), which writes `b += v1 * -1` and `b += v2`. -/
def addToAllB (s : LinSystem) (v : ℚ) : LinSystem :=
  { s with b := fun p => s.b p + v }

/-- The fresh all-zero system produced by ILinearSystem.create. -/
def zeroSys : LinSystem := { A := fun _ _ => 0, b := fun _ => 0 }

/-! ## Resistor (class R of IComponent.py) -/

/-- A resistor after constant resolution: terminals, current value, and the
saved old value (`self.__old_value`, None until init_linear_system runs). -/
structure RComp where
node1 : Node
node2 : Node
value : ℚ
old_value : Option ℚ
deriving DecidableEq

/-- The body of R.apply_element_stamps once `value` and `modifier` are
chosen: the two conditional current-contribution blocks for node1 and
node2 (IComponent.py lines 196-218). -/
def R.stampWith (n1 n2 : Node) (value modifier : ℚ) (s : LinSystem) : LinSystem :=
  let one_over_R := 1 / value
  let s1 :=
    match n1 with
    | .var v1 =>
        let sA := addToA s v1 v1 (one_over_R * modifier)
        match n2 with
        | .var v2 => addToA sA v1 v2 (-1 * one_over_R * modifier)
        | .const c2 => addToB sA v1 (c2 * one_over_R * modifier)
    | .const _ => s
  match n2 with
  | .var v2 =>
      let sB := addToA s1 v2 v2 (one_over_R * modifier)
      match n1 with
      | .var v1 => addToA sB v2 v1 (-1 * one_over_R * modifier)
      | .const c1 => addToB sB v2 (c1 * one_over_R * modifier)
  | .const _ => s1

/-- R.apply_element_stamps: with `undo` set (the source calls it
partial-undo) the saved old value is stamped with modifier −1, otherwise the
current value is stamped with modifier +1.  A missing old value (None) makes
the Python `1 / value` fail, modelled as `none`. -/
def R.apply_element_stamps (r : RComp) (s : LinSystem) (undo : Bool) : Option LinSystem :=
  match (if undo then r.old_value else some r.value) with
  | none => none
  | some value =>
      let modifier : ℚ := if undo then -1 else 1
      some (R.stampWith r.node1 r.node2 value modifier s)

/-- R.init_linear_system: back up the value, then stamp it. -/
def R.init_linear_system (r : RComp) (s : LinSystem) : RComp × Option LinSystem :=
  let r2 := { r with old_value := some r.value }
  (r2, R.apply_element_stamps r2 s false)

/-- R.update_linear_system: undo the old stamp, then re-run
init_linear_system (which refreshes the backup after the subtraction). -/
def R.update_linear_system (r : RComp) (s : LinSystem) : RComp × Option LinSystem :=
  match R.apply_element_stamps r s true with
  | none => (r, none)
  | some s1 => R.init_linear_system r s1

/-- A finite sequence of resistance edits: each edit assigns `r.value` and
then calls R.update_linear_system, as the host does between simulation
cycles. -/
def R.applyEdits : List ℚ → RComp × Option LinSystem → RComp × Option LinSystem
  | [], st => st
  | v :: rest, (r, os) =>
      match os with
      | none => ({ r with value := v }, none)
      | some s => R.applyEdits rest (R.update_linear_system { r with value := v } s)

theorem R.stampWith_undo (n1 n2 : Node) (w : ℚ) (s : LinSystem) :
    R.stampWith n1 n2 w (-1) (R.stampWith n1 n2 w 1 s) = s := by
  cases n1 with
  | var v1 =>
      cases n2 with
      | var v2 =>
          simp only [R.stampWith, addToA]
          refine LinSystem.ext ?_ rfl
          funext p q
          simp only
          split_ifs <;> ring
      | const c2 =>
          simp only [R.stampWith, addToA, addToB]
          refine LinSystem.ext ?_ ?_
          · funext p q
            simp only
            split_ifs <;> ring
          · funext p
            simp only
            split_ifs <;> ring
  | const c1 =>
      cases n2 with
      | var v2 =>
          simp only [R.stampWith, addToA, addToB]
          refine LinSystem.ext ?_ ?_
          · funext p q
            simp only
            split_ifs <;> ring
          · funext p
            simp only
            split_ifs <;> ring
      | const c2 => rfl

theorem R.applyEdits_invariant (n1 n2 : Node) (edits : List ℚ) :
    ∀ (v : ℚ) (s0 : LinSystem),
      R.applyEdits edits
          (⟨n1, n2, v, some v⟩, some (R.stampWith n1 n2 v 1 s0)) =
        (⟨n1, n2, edits.getLastD v, some (edits.getLastD v)⟩,
          some (R.stampWith n1 n2 (edits.getLastD v) 1 s0)) := by
  induction edits with
  | nil => intro v s0; rfl
  | cons e rest ih =>
      intro v s0
      have hundo :
          R.update_linear_system ⟨n1, n2, e, some v⟩ (R.stampWith n1 n2 v 1 s0) =
            (⟨n1, n2, e, some e⟩, some (R.stampWith n1 n2 e 1 s0)) := by
        simp only [R.update_linear_system, R.apply_element_stamps, R.init_linear_system]
        simp [R.stampWith_undo n1 n2 v s0]
      simp only [R.applyEdits, hundo, List.getLastD_cons]
      exact ih e s0

/-- C4: for every resistor and every finite sequence of resistance edits
each followed by update_linear_system, the resulting component state and
linear system are exactly those produced by one init_linear_system with the
final resistance on the same starting system: every partial-undo cancels
the previously applied stamp, the saved old value being refreshed only
inside init_linear_system after the subtraction. -/
theorem resistor_partial_undo_final_stamp (n1 n2 : Node) (v0 : ℚ) (edits : List ℚ)
    (s0 : LinSystem) :
    R.applyEdits edits (R.init_linear_system ⟨n1, n2, v0, none⟩ s0) =
      R.init_linear_system ⟨n1, n2, edits.getLastD v0, none⟩ s0 := by
  have h0 : R.init_linear_system ⟨n1, n2, v0, none⟩ s0 =
      (⟨n1, n2, v0, some v0⟩, some (R.stampWith n1 n2 v0 1 s0)) := rfl
  have h1 : R.init_linear_system ⟨n1, n2, edits.getLastD v0, none⟩ s0 =
      (⟨n1, n2, edits.getLastD v0, some (edits.getLastD v0)⟩,
        some (R.stampWith n1 n2 (edits.getLastD v0) 1 s0)) := rfl
  rw [h0, h1]
  exact R.applyEdits_invariant n1 n2 edits v0 s0

/-! ## Analysis modes and descriptions (IComponent.py lines 6-18) -/

/-- AnalysisModes: the enumeration of analysis modes. -/
inductive AnalysisModes where
| DC
| Transient
| AC_Sweep
deriving DecidableEq

/-- AnalysisDescription: mode, time_step (defaults 1e-6) and angular
frequency w (defaults 1).  time_step is kept exact (ℚ); w is real because
Circuit.ac_sweep writes multiples of math.pi into it. -/
structure AnalysisDescription where
mode : AnalysisModes
time_step : ℚ
w : ℝ

/-- The AnalysisDescription constructor defaults: mode DC, time_step 1e-6,
w = 1. -/
noncomputable def AnalysisDescription.initial : AnalysisDescription :=
  { mode := .DC, time_step := 1 / 1000000, w := 1 }

/-! ## Independent voltage source VS (IComponent.py lines 238-333)

A live VS has both terminals as variables (constant propagation disables any
VS with a fixed terminal), so the embedding carries the resolved variable
indices v1, v2 and the current-variable index i directly. -/

/-- A VS after name and constant resolution, in terms of the indices its
stamping methods look up. -/
structure VSComp where
disabled : Bool
v1 : ℕ
v2 : ℕ
i : ℕ
value : ℚ
deriving DecidableEq

/-- VS.init_linear_system (lines 296-320): nothing for a disabled VS;
otherwise the current-balance increments A[v1,i] += −1, A[v2,i] += +1 and
the overwritten auxiliary row A[i,v1] = 1, A[i,v2] = −1, b[i] = value. -/
def VS.init_linear_system (c : VSComp) (s : LinSystem) : LinSystem :=
  if c.disabled then s
  else
    let s := addToA s c.v1 c.i (-1)
    let s := addToA s c.v2 c.i 1
    let s := setA s c.i c.v1 1
    let s := setA s c.i c.v2 (-1)
    setB s c.i c.value

/-! ## Voltage generator VG (IComponent.py lines 720-791) -/

/-- A VG after resolution: terminals may be variables or constants, plus the
current-variable index i. -/
structure VGComp where
node1 : Node
node2 : Node
i : ℕ
value : ℚ
deriving DecidableEq

/-- VG.apply_component_only_stamps (lines 743-764): zero the exclusive row,
then stamp A[i,v1] = 1 (or b[i] += −v1 for a constant terminal),
A[i,v2] = −1 (or b[i] += v2), and b[i] += value. -/
def VG.apply_component_only_stamps (c : VGComp) (s : LinSystem) : LinSystem :=
  let s := match c.node1 with | .var v1 => setA s c.i v1 0 | .const _ => s
  let s := match c.node2 with | .var v2 => setA s c.i v2 0 | .const _ => s
  let s := setB s c.i 0
  let s := match c.node1 with
    | .var v1 => setA s c.i v1 1
    | .const v1 => addToB s c.i (-1 * v1)
  let s := match c.node2 with
    | .var v2 => setA s c.i v2 (-1)
    | .const v2 => addToB s c.i v2
  addToB s c.i c.value

/-- VG.init_linear_system (lines 767-783): current-balance increments
A[v1,i] += −1 and A[v2,i] += +1 for variable terminals, then the
component-only stamps. -/
def VG.init_linear_system (c : VGComp) (s : LinSystem) : LinSystem :=
  let s := match c.node1 with | .var v1 => addToA s v1 c.i (-1) | .const _ => s
  let s := match c.node2 with | .var v2 => addToA s v2 c.i 1 | .const _ => s
  VG.apply_component_only_stamps c s

/-- A live VS on variable indices 0, 1 with current index 2 and value 5. -/
def vsExample : VSComp := { disabled := false, v1 := 0, v2 := 1, i := 2, value := 5 }

/-- A VG on the same indices as vsExample. -/
def vgExample : VGComp := { node1 := .var 0, node2 := .var 1, i := 2, value := 5 }

/-- C5 counterexample: on a fresh zero system, the current-balance entries
stamped by VG.init_linear_system are NOT the negations of the entries
stamped by VS.init_linear_system for the same v1, v2, i: both stamp
A[v1,i] = −1 and A[v2,i] = +1, with identical (not flipped) signs. -/
theorem vg_vs_sign_not_flipped :
    ¬((VG.init_linear_system vgExample zeroSys).A 0 2 =
        -((VS.init_linear_system vsExample zeroSys).A 0 2) ∧
      (VG.init_linear_system vgExample zeroSys).A 1 2 =
        -((VS.init_linear_system vsExample zeroSys).A 1 2)) := by
  intro hcl
  have hg : (VG.init_linear_system vgExample zeroSys).A 0 2 = -1 := by
    simp [VG.init_linear_system, VG.apply_component_only_stamps, vgExample,
      zeroSys, addToA, setA, setB, addToB]
  have hs : (VS.init_linear_system vsExample zeroSys).A 0 2 = -1 := by
    simp [VS.init_linear_system, vsExample, zeroSys, addToA, setA, setB]
  rw [hg, hs] at hcl
  norm_num at hcl

/-- C5 amended: for every live VS and every VG with both terminals variable
and the same terminal indices v1, v2 and current index i (pairwise
distinct), the current-balance entries stamped by the two init_linear_system
methods are EQUAL: both add −1 into A[v1,i] and +1 into A[v2,i]. -/
theorem vg_vs_current_balance_equal (v1 v2 i : ℕ) (valS valG : ℚ) (s : LinSystem)
    (h1 : v1 ≠ i) (h2 : v2 ≠ i) (h3 : v1 ≠ v2) :
    (VG.init_linear_system ⟨.var v1, .var v2, i, valG⟩ s).A v1 i =
        (VS.init_linear_system ⟨false, v1, v2, i, valS⟩ s).A v1 i ∧
      (VG.init_linear_system ⟨.var v1, .var v2, i, valG⟩ s).A v2 i =
        (VS.init_linear_system ⟨false, v1, v2, i, valS⟩ s).A v2 i ∧
      (VS.init_linear_system ⟨false, v1, v2, i, valS⟩ s).A v1 i = s.A v1 i + -1 ∧
      (VS.init_linear_system ⟨false, v1, v2, i, valS⟩ s).A v2 i = s.A v2 i + 1 := by
  simp only [VG.init_linear_system, VG.apply_component_only_stamps,
    VS.init_linear_system, addToA, setA, setB, addToB, Bool.false_eq_true, if_false]
  refine ⟨?_, ?_, ?_, ?_⟩ <;>
    simp [h1, h2, h3, Ne.symm h1, Ne.symm h2, Ne.symm h3]

/-- C5 amended claim instantiated at vsExample and vgExample indices. -/
theorem vg_vs_current_balance_equal_app :
    (VG.init_linear_system ⟨.var 0, .var 1, 2, (5 : ℚ)⟩ zeroSys).A 0 2 =
        (VS.init_linear_system ⟨false, 0, 1, 2, (5 : ℚ)⟩ zeroSys).A 0 2 ∧
      (VG.init_linear_system ⟨.var 0, .var 1, 2, (5 : ℚ)⟩ zeroSys).A 1 2 =
        (VS.init_linear_system ⟨false, 0, 1, 2, (5 : ℚ)⟩ zeroSys).A 1 2 ∧
      (VS.init_linear_system ⟨false, 0, 1, 2, (5 : ℚ)⟩ zeroSys).A 0 2 =
        zeroSys.A 0 2 + -1 ∧
      (VS.init_linear_system ⟨false, 0, 1, 2, (5 : ℚ)⟩ zeroSys).A 1 2 =
        zeroSys.A 1 2 + 1 :=
  vg_vs_current_balance_equal 0 1 2 5 5 zeroSys (by decide) (by decide) (by decide)

/-! ## Inductor L (IComponent.py lines 595-716), real-scalar modes -/

/-- An inductor after resolution: terminals, inductance, companion state
vL, iL, and the current-variable index i. -/
structure LComp where
node1 : Node
node2 : Node
value : ℚ
vL : ℚ
iL : ℚ
i : ℕ
deriving DecidableEq

/-- L.apply_component_only_stamps (lines 630-691).  The entries of the
exclusive row are zeroed, then stamped according to the mode.  The DC
branch reproduces the source exactly, including its whole-vector writes
`b += v1 * -1` and `b += v2` for constant terminals (lines 686 and 691).
The AC_Sweep branch stamps complex values and runs only against the complex
system, which this real-scalar embedding does not model; it returns none. -/
def L.apply_component_only_stamps (c : LComp) (s : LinSystem)
    (desc : AnalysisDescription) : Option LinSystem :=
  let s := match c.node1 with | .var v1 => setA s c.i v1 0 | .const _ => s
  let s := match c.node2 with | .var v2 => setA s c.i v2 0 | .const _ => s
  let s := setA s c.i c.i 0
  let s := setB s c.i 0
  match desc.mode with
  | .Transient =>
      let dt_over_2L := desc.time_step / (2 * c.value)
      let s := match c.node1 with
        | .var v1 => setA s c.i v1 dt_over_2L
        | .const v1 => addToB s c.i (-(dt_over_2L * v1))
      let s := match c.node2 with
        | .var v2 => setA s c.i v2 (-1 * dt_over_2L)
        | .const v2 => addToB s c.i (dt_over_2L * v2)
      let s := setA s c.i c.i (-1)
      some (addToB s c.i (-1 * dt_over_2L * c.vL - c.iL))
  | .AC_Sweep => none
  | .DC =>
      let s := match c.node1 with
        | .var v1 => setA s c.i v1 1
        | .const v1 => addToAllB s (v1 * -1)
      let s := match c.node2 with
        | .var v2 => setA s c.i v2 (-1)
        | .const v2 => addToAllB s v2
      some s

/-- L.init_linear_system (lines 694-710): current-balance increments for
variable terminals, then the component-only stamps. -/
def L.init_linear_system (c : LComp) (s : LinSystem)
    (desc : AnalysisDescription) : Option LinSystem :=
  let s := match c.node1 with | .var v1 => addToA s v1 c.i 1 | .const _ => s
  let s := match c.node2 with | .var v2 => addToA s v2 c.i (-1) | .const _ => s
  L.apply_component_only_stamps c s desc

/-- L.update_linear_system (lines 713-716): just the component-only stamps. -/
def L.update_linear_system (c : LComp) (s : LinSystem)
    (desc : AnalysisDescription) : Option LinSystem :=
  L.apply_component_only_stamps c s desc

/-- An inductor whose node1 is anchored at the constant 5 V, node2 the
variable of index 0, current-variable index 1. -/
def anchoredInductor : LComp :=
  { node1 := .const 5, node2 := .var 0, value := 1, vL := 0, iL := 0, i := 1 }

/-- A DC analysis description (the w field is never read in DC mode). -/
noncomputable def descDC : AnalysisDescription :=
  { mode := .DC, time_step := 1 / 1000000, w := 1 }

/-- C3, evaluated at the failing input: stamping anchoredInductor in DC mode
changes row 0 of b — a row that is NOT the inductor's exclusive row i = 1 —
from 0 to −5, because the source writes `b += v1 * -1` over the whole
vector.  This contradicts the claimed frame property that only b[i] is
written. -/
theorem inductor_dc_const_writes_whole_b :
    anchoredInductor.i = 1 ∧ zeroSys.b 0 = 0 ∧
      ((L.update_linear_system anchoredInductor zeroSys descDC).map fun s => s.b 0) =
        some (-5) := by
  refine ⟨rfl, rfl, ?_⟩
  simp [L.update_linear_system, L.apply_component_only_stamps, descDC,
    anchoredInductor, setA, setB, addToAllB, zeroSys]

/-! ## Circuit.ac_sweep angular frequency (Circuit.py lines 464-496) -/

/-- The AnalysisDescription Circuit.ac_sweep stamps with before the
frequency loop (lines 465-467): mode AC_Sweep and w set to the raw first
grid frequency freq[0] — no 2π factor. -/
noncomputable def Circuit.ac_sweep_init_desc (freq0 : ℝ) : AnalysisDescription :=
  { mode := .AC_Sweep, time_step := 1 / 1000000, w := freq0 }

/-- The per-iteration update of the description inside the frequency loop
(line 482): w = f * 2 * math.pi, before the LC components are restamped. -/
noncomputable def Circuit.ac_sweep_loop_desc (d : AnalysisDescription) (f : ℝ) :
    AnalysisDescription :=
  { d with w := f * 2 * Real.pi }

/-- C6 counterexample: with first grid frequency 1 Hz, the description used
for the initial stamping pass carries w = 1, not 2π·1: the 2π factor is
missing from the initial pass. -/
theorem ac_init_w_not_two_pi :
    (Circuit.ac_sweep_init_desc 1).w ≠ 2 * Real.pi * 1 := by
  intro h
  have hpi := Real.pi_gt_three
  have h1 : (Circuit.ac_sweep_init_desc 1).w = 1 := rfl
  rw [h1] at h
  nlinarith

/-- C6 amended: the initial stamping pass receives w equal to the first grid
frequency itself (the 2π factor is applied only inside the loop); inside the
loop the field is set to 2πf before the LC components are restamped; and the
initial w agrees with the 2π·f[0] the claim states only when f[0] = 0. -/
theorem ac_sweep_w_amended (f0 : ℝ) :
    (Circuit.ac_sweep_init_desc f0).w = f0 ∧
      (∀ (d : AnalysisDescription) (f : ℝ),
        (Circuit.ac_sweep_loop_desc d f).w = 2 * Real.pi * f) ∧
      ((Circuit.ac_sweep_init_desc f0).w = 2 * Real.pi * f0 ↔ f0 = 0) := by
  refine ⟨rfl, fun d f => by show f * 2 * Real.pi = 2 * Real.pi * f; ring, ?_⟩
  have hpi := Real.pi_gt_three
  constructor
  · intro h
    have h1 : (Circuit.ac_sweep_init_desc f0).w = f0 := rfl
    rw [h1] at h
    have h2 : f0 * (2 * Real.pi - 1) = 0 := by linarith [h]
    rcases mul_eq_zero.mp h2 with h3 | h3
    · exact h3
    · nlinarith
  · intro h
    simp [Circuit.ac_sweep_init_desc, h]

/-! ## VS.resolve_constants (IComponent.py lines 253-285)

Before constant resolution a terminal is either a symbolic name (a Python
str) or a numeric value, modelled by `NodeRef`.  The voltage_constants dict
is modelled as an association list keyed by NodeRef (Python dict keys are
whatever was inserted; initially they are strings such as "gnd"). -/

/-- A terminal as the constructor received it: symbolic name or value. -/
inductive NodeRef where
| name (s : String)
| val (v : ℚ)
deriving DecidableEq

/-- Whether the terminal is still a symbolic name (Python `type(x) is str`). -/
def NodeRef.isName : NodeRef → Bool
| .name _ => true
| .val _ => false

/-- The failures VS.resolve_constants can raise: the inconsistent-constants
Exception of lines 261-264, or the Python TypeError of evaluating
`node1 - node2 - value` when node2 is still a str. -/
inductive ResolveErr where
| inconsistent
| typeMismatch
deriving DecidableEq

/-- The voltage_constants dict. -/
abbrev VoltageConstants := List (NodeRef × ℚ)

/-- Dict membership and read: `key in vc` and `vc[key]`. -/
def vcFind : VoltageConstants → NodeRef → Option ℚ
| [], _ => none
| (k, v) :: rest, key => if key = k then some v else vcFind rest key

/-- Dict assignment `vc[key] = v`. -/
def vcInsert : VoltageConstants → NodeRef → ℚ → VoltageConstants
| [], key, v => [(key, v)]
| (k, w) :: rest, key, v =>
    if key = k then (k, v) :: rest else (k, w) :: vcInsert rest key v

/-- A VS before constant resolution. -/
structure VSPre where
node1 : NodeRef
node2 : NodeRef
value : ℚ
disabled : Bool
deriving DecidableEq

/-- VS.resolve_constants.  The consistency guard of line 259 tests
`type(self.node1) is not str` TWICE (it never looks at node2's type), which
the embedding reproduces; inside the guarded block, `node1 - node2 - value`
with a str node2 raises TypeError, modelled as `.error .typeMismatch`.
Returns the updated component, the updated dict, and the Python return
value (None when the method falls off the end). -/
def VS.resolve_constants (c : VSPre) (vc : VoltageConstants) :
    Except ResolveErr (VSPre × VoltageConstants × Option Bool) :=
  if c.node1.isName = false ∧ c.node1.isName = false then
    match c.node1, c.node2 with
    | .val v1, .val v2 =>
        if |v1 - v2 - c.value| > 1 / 1000000 then .error .inconsistent
        else .ok (c, vc, some false)
    | _, _ => .error .typeMismatch
  else
    match vcFind vc c.node1 with
    | some v =>
        let node2_name := c.node2
        let n2val := v - c.value
        .ok ({ c with node1 := .val v, node2 := .val n2val, disabled := true },
          vcInsert vc node2_name n2val, some true)
    | none =>
        match vcFind vc c.node2 with
        | some v =>
            let node1_name := c.node1
            let n1val := v + c.value
            .ok ({ c with node1 := .val n1val, node2 := .val v, disabled := true },
              vcInsert vc node1_name n1val, some true)
        | none => .ok (c, vc, none)

/-- C7: VS.resolve_constants raises the inconsistent-constants error exactly
when both terminals hold fixed numeric values and |node1 − node2 − value|
exceeds 1e-6; when both are fixed and consistent it returns with no change
(and Python False); and when either terminal is still a symbolic name the
consistency failure is never raised. -/
theorem vs_resolve_inconsistent_iff (c : VSPre) (vc : VoltageConstants) :
    (VS.resolve_constants c vc = .error .inconsistent ↔
      ∃ v1 v2, c.node1 = .val v1 ∧ c.node2 = .val v2 ∧
        |v1 - v2 - c.value| > 1 / 1000000) ∧
    (∀ v1 v2, c.node1 = .val v1 → c.node2 = .val v2 →
      |v1 - v2 - c.value| ≤ 1 / 1000000 →
      VS.resolve_constants c vc = .ok (c, vc, some false)) ∧
    ((c.node1.isName = true ∨ c.node2.isName = true) →
      VS.resolve_constants c vc ≠ .error .inconsistent) := by
  obtain ⟨n1, n2, v, dis⟩ := c
  cases n1 with
  | name a =>
      have hres : ∀ r, VS.resolve_constants ⟨.name a, n2, v, dis⟩ vc ≠
          .error r := by
        intro r
        simp only [VS.resolve_constants, NodeRef.isName]
        rcases h1 : vcFind vc (.name a) with _ | w
        · rcases h2 : vcFind vc n2 with _ | w2 <;> simp [h1, h2]
        · simp [h1]
      refine ⟨?_, ?_, ?_⟩
      · constructor
        · intro h; exact absurd h (hres _)
        · rintro ⟨v1, v2, h, _⟩; cases h
      · intro v1 v2 h; cases h
      · intro _; exact hres _
  | val v1 =>
      cases n2 with
      | name b =>
          have hres : VS.resolve_constants ⟨.val v1, .name b, v, dis⟩ vc =
              .error .typeMismatch := by
            simp [VS.resolve_constants, NodeRef.isName]
          refine ⟨?_, ?_, ?_⟩
          · rw [hres]
            constructor
            · intro h; cases h
            · rintro ⟨w1, w2, _, h, _⟩; cases h
          · intro w1 w2 _ h; cases h
          · intro _; rw [hres]; intro h; cases h
      | val v2 =>
          have hguard : VS.resolve_constants ⟨.val v1, .val v2, v, dis⟩ vc =
              if |v1 - v2 - v| > 1 / 1000000 then .error .inconsistent
              else .ok (⟨.val v1, .val v2, v, dis⟩, vc, some false) := by
            simp [VS.resolve_constants, NodeRef.isName]
          refine ⟨?_, ?_, ?_⟩
          · rw [hguard]
            by_cases h : |v1 - v2 - v| > 1 / 1000000
            · rw [if_pos h]
              exact ⟨fun _ => ⟨v1, v2, rfl, rfl, h⟩, fun _ => rfl⟩
            · rw [if_neg h]
              constructor
              · intro hx; cases hx
              · rintro ⟨w1, w2, hw1, hw2, hgt⟩
                cases hw1; cases hw2
                exact absurd hgt h
          · intro w1 w2 hw1 hw2 hle
            cases hw1; cases hw2
            rw [hguard, if_neg (not_lt.mpr hle)]
          · rintro (h | h) <;> simp [NodeRef.isName] at h

/-- C7 instantiated: a VS anchored at node1 = 5 and node2 = 1 with nominal
value 5 (mismatch 1 > 1e-6) raises the inconsistent-constants error, and one
with value 4 does not. -/
theorem vs_resolve_inconsistent_iff_app :
    VS.resolve_constants ⟨.val 5, .val 1, 5, false⟩ [] =
        .error .inconsistent ∧
      VS.resolve_constants ⟨.val 5, .val 1, 4, false⟩ [] =
        .ok (⟨.val 5, .val 1, 4, false⟩, [], some false) :=
  ⟨(vs_resolve_inconsistent_iff ⟨.val 5, .val 1, 5, false⟩ []).1.mpr
      ⟨5, 1, rfl, rfl, by norm_num⟩,
    (vs_resolve_inconsistent_iff ⟨.val 5, .val 1, 4, false⟩ []).2.1 5 1 rfl rfl
      (by norm_num)⟩

/-! ## The variable table of CircuitComponents.__init__ (Circuit.py 63-82)

The dict-building loop walks the stream of variable names the components
report (in declared order) and assigns each new name the next free index;
variable_names_list is then allocated and scatter-filled from the dict
items.  Python dicts preserve insertion order, so the dict is modelled as an
association list. -/

/-- Dict lookup `variable_names_dict[name]` (and `name in dict` via isSome). -/
def lookupVar : List (String × ℕ) → String → Option ℕ
| [], _ => none
| (k, v) :: rest, key => if key = k then some v else lookupVar rest key

/-- One step of the collection loop (lines 73-76): a name not yet in the
dict gets the current var_name_index, which is then incremented. -/
def addVarName (st : List (String × ℕ) × ℕ) (nm : String) : List (String × ℕ) × ℕ :=
  match lookupVar st.1 nm with
  | some _ => st
  | none => (st.1 ++ [(nm, st.2)], st.2 + 1)

/-- The whole collection loop, from the empty dict and var_name_index 0,
over the concatenated stream of component variable names. -/
def buildVarDict (names : List String) : List (String × ℕ) × ℕ :=
  names.foldl addVarName ([], 0)

/-- Lines 79-82: variable_names_list = [''] * len(dict), then
list[index] = var_name for every item of the dict. -/
def buildVarList (d : List (String × ℕ)) : List String :=
  d.foldl (fun acc p => acc.set p.2 p.1) (List.replicate d.length "")

theorem lookupVar_none_iff (d : List (String × ℕ)) (nm : String) :
    lookupVar d nm = none ↔ ∀ p ∈ d, p.1 ≠ nm := by
  induction d with
  | nil => simp [lookupVar]
  | cons q rest ih =>
      obtain ⟨k, v⟩ := q
      by_cases h : nm = k
      · subst h
        simp only [lookupVar, if_pos rfl]
        constructor
        · intro hx; cases hx
        · intro hall; exact absurd rfl (hall (nm, v) (List.mem_cons_self _ _))
      · simp only [lookupVar, if_neg h, ih]
        constructor
        · intro hall p hp
          rcases List.mem_cons.mp hp with rfl | hp2
          · exact fun hh => h hh.symm
          · exact hall p hp2
        · intro hall p hp; exact hall p (List.mem_cons_of_mem _ hp)

theorem lookupVar_mem (d : List (String × ℕ)) (nm : String) (i : ℕ)
    (h : lookupVar d nm = some i) : (nm, i) ∈ d := by
  induction d with
  | nil => cases h
  | cons q rest ih =>
      obtain ⟨k, v⟩ := q
      by_cases hk : nm = k
      · subst hk
        rw [lookupVar, if_pos rfl] at h
        obtain rfl : v = i := by injection h
        exact List.mem_cons_self _ _
      · rw [lookupVar, if_neg hk] at h
        exact List.mem_cons_of_mem _ (ih h)

theorem lookupVar_of_mem (d : List (String × ℕ))
    (hnd : (d.map Prod.fst).Nodup) (p : String × ℕ) (hp : p ∈ d) :
    lookupVar d p.1 = some p.2 := by
  induction d with
  | nil => cases hp
  | cons q rest ih =>
      rw [List.map_cons, List.nodup_cons] at hnd
      obtain ⟨hq, hrest⟩ := hnd
      rcases List.mem_cons.mp hp with rfl | hp2
      · rw [lookupVar, if_pos rfl]
      · have hne : p.1 ≠ q.1 := by
          intro he
          exact hq (he ▸ List.mem_map_of_mem Prod.fst hp2)
        rw [lookupVar, if_neg hne]
        exact ih hrest hp2

/-- The invariant of the collection loop: var_name_index equals the dict
size, the indices are 0..n−1 in insertion order, and names are unique. -/
def DictInv (d : List (String × ℕ)) (idx : ℕ) : Prop :=
  idx = d.length ∧ d.map Prod.snd = List.range d.length ∧ (d.map Prod.fst).Nodup

theorem addVarName_inv (st : List (String × ℕ) × ℕ) (nm : String)
    (h : DictInv st.1 st.2) : DictInv (addVarName st nm).1 (addVarName st nm).2 := by
  obtain ⟨d, idx⟩ := st
  dsimp only at h ⊢
  obtain ⟨h1, h2, h3⟩ := h
  rcases hl : lookupVar d nm with _ | j
  · simp only [addVarName, hl]
    refine ⟨?_, ?_, ?_⟩
    · simp [h1]
    · subst h1
      simp [h2, List.range_succ]
    · have hmem : nm ∉ d.map Prod.fst := by
        intro hmem
        obtain ⟨p, hp, hfst⟩ := List.mem_map.mp hmem
        exact (lookupVar_none_iff d nm).mp hl p hp hfst
      simp [List.nodup_append, h3, hmem]
  · simp only [addVarName, hl]
    exact ⟨h1, h2, h3⟩

theorem foldl_addVarName_inv (names : List String) :
    ∀ st, DictInv st.1 st.2 →
      DictInv (names.foldl addVarName st).1 (names.foldl addVarName st).2 := by
  induction names with
  | nil => intro st h; exact h
  | cons nm rest ih => intro st h; exact ih _ (addVarName_inv st nm h)

theorem buildVarDict_inv (names : List String) :
    DictInv (buildVarDict names).1 (buildVarDict names).2 :=
  foldl_addVarName_inv names ([], 0) ⟨rfl, rfl, List.nodup_nil⟩

theorem foldl_set_length (ps : List (String × ℕ)) :
    ∀ acc : List String,
      (ps.foldl (fun a p => a.set p.2 p.1) acc).length = acc.length := by
  induction ps with
  | nil => intro acc; rfl
  | cons p rest ih => intro acc; rw [List.foldl_cons, ih, List.length_set]

theorem foldl_set_getElem?_lt (ps : List (String × ℕ)) :
    ∀ (acc : List String) (j k : ℕ),
      ps.map Prod.snd = List.range' j ps.length → k < j →
      (ps.foldl (fun a p => a.set p.2 p.1) acc)[k]? = acc[k]? := by
  induction ps with
  | nil => intro acc j k _ _; rfl
  | cons p rest ih =>
      intro acc j k hmap hk
      rw [List.map_cons, List.length_cons,
        show List.range' j (rest.length + 1) = j :: List.range' (j + 1) rest.length
          from rfl] at hmap
      obtain ⟨hpj, hrest⟩ := List.cons_eq_cons.mp hmap
      rw [List.foldl_cons, ih (acc.set p.2 p.1) (j + 1) k hrest (by omega)]
      exact List.getElem?_set_ne (by omega)

theorem foldl_set_getElem?_mem (ps : List (String × ℕ)) :
    ∀ (acc : List String) (j k : ℕ),
      ps.map Prod.snd = List.range' j ps.length →
      j + ps.length ≤ acc.length → j ≤ k → k < j + ps.length →
      (ps.foldl (fun a p => a.set p.2 p.1) acc)[k]? =
        some (ps.getD (k - j) ("", 0)).1 := by
  induction ps with
  | nil =>
      intro acc j k _ _ hjk hklt
      rw [List.length_nil] at hklt
      exact absurd hklt (by omega)
  | cons p rest ih =>
      intro acc j k hmap hlen hjk hklt
      rw [List.map_cons, List.length_cons,
        show List.range' j (rest.length + 1) = j :: List.range' (j + 1) rest.length
          from rfl] at hmap
      obtain ⟨hpj, hrest⟩ := List.cons_eq_cons.mp hmap
      rw [List.length_cons] at hlen hklt
      rw [List.foldl_cons]
      by_cases hkj : k = j
      · subst hkj
        rw [foldl_set_getElem?_lt rest (acc.set p.2 p.1) (k + 1) k hrest (by omega)]
        rw [hpj, List.getElem?_set_self (by omega)]
        simp
      · have hrec := ih (acc.set p.2 p.1) (j + 1) k hrest
          (by rw [List.length_set]; omega) (by omega) (by omega)
        rw [hrec, show k - j = (k - (j + 1)) + 1 by omega, List.getD_cons_succ]

theorem buildVarList_length (d : List (String × ℕ)) :
    (buildVarList d).length = d.length := by
  rw [buildVarList, foldl_set_length, List.length_replicate]

theorem buildVarList_getElem? (d : List (String × ℕ))
    (h : d.map Prod.snd = List.range d.length) (k : ℕ) (hk : k < d.length) :
    (buildVarList d)[k]? = some (d.getD k ("", 0)).1 := by
  have hrun := foldl_set_getElem?_mem d (List.replicate d.length "") 0 k
    (by rw [h, List.range_eq_range']) (by simp) (by omega) (by omega)
  simpa [buildVarList] using hrun

theorem entry_snd_lt (d : List (String × ℕ))
    (h : d.map Prod.snd = List.range d.length) {p : String × ℕ} (hp : p ∈ d) :
    p.2 < d.length := by
  have hm : p.2 ∈ d.map Prod.snd := List.mem_map_of_mem _ hp
  rw [h] at hm
  exact List.mem_range.mp hm

theorem entry_getD_snd (d : List (String × ℕ))
    (h : d.map Prod.snd = List.range d.length) {p : String × ℕ} (hp : p ∈ d) :
    d.getD p.2 ("", 0) = p := by
  obtain ⟨n, hn⟩ := List.mem_iff_get.mp hp
  have hlt : n.val < d.length := n.isLt
  have hdn : d[n.val] = p := by rw [← List.get_eq_getElem]; exact hn
  have h2 : p.2 = n.val := by
    have h1 : (d.map Prod.snd)[n.val]? = some p.2 := by
      rw [List.getElem?_eq_getElem (by simp [hlt])]
      rw [List.getElem_map, hdn]
    rw [h, List.getElem?_eq_getElem (by simp [hlt]), List.getElem_range] at h1
    injection h1 with h1
    exact h1.symm
  rw [h2, List.getD_eq_getElem _ _ hlt, hdn]

theorem getD_snd_eq (d : List (String × ℕ))
    (h : d.map Prod.snd = List.range d.length) (i : ℕ) (hi : i < d.length) :
    (d.getD i ("", 0)).2 = i := by
  rw [List.getD_eq_getElem _ _ hi]
  have h1 : (d.map Prod.snd)[i]? = some (d[i].2) := by
    rw [List.getElem?_eq_getElem (by simpa using hi)]
    rw [List.getElem_map]
  rw [h, List.getElem?_eq_getElem (by simpa using hi), List.getElem_range] at h1
  injection h1 with h1
  exact h1.symm

/-- C8: for every stream of component variable names, the variable table
built by CircuitComponents.__init__ is a bijection between names and the
indices 0..n−1 where n = len(variable_names_list):
list and dict have the same size; every name in the dict maps to an
in-range index at which the list holds that very name; every list position
looks up back to its own index; and the dict is injective. -/
theorem variable_table_bijection (names : List String) :
    (buildVarList (buildVarDict names).1).length = (buildVarDict names).1.length ∧
      (∀ nm i, lookupVar (buildVarDict names).1 nm = some i →
        i < (buildVarList (buildVarDict names).1).length ∧
          (buildVarList (buildVarDict names).1).getD i "" = nm) ∧
      (∀ i, i < (buildVarList (buildVarDict names).1).length →
        lookupVar (buildVarDict names).1
            ((buildVarList (buildVarDict names).1).getD i "") = some i) ∧
      (∀ n1 n2 i, lookupVar (buildVarDict names).1 n1 = some i →
        lookupVar (buildVarDict names).1 n2 = some i → n1 = n2) := by
  obtain ⟨-, hsnd, hnodup⟩ := buildVarDict_inv names
  set d := (buildVarDict names).1 with hd
  have hlen : (buildVarList d).length = d.length := buildVarList_length d
  have hgetD : ∀ k, k < d.length → (buildVarList d).getD k "" = (d.getD k ("", 0)).1 := by
    intro k hk
    have h1 := buildVarList_getElem? d hsnd k hk
    rw [List.getD_eq_getElem _ _ (by rw [hlen]; exact hk)]
    rw [List.getElem?_eq_getElem (by rw [hlen]; exact hk)] at h1
    injection h1
  have hfwd : ∀ nm i, lookupVar d nm = some i →
      i < (buildVarList d).length ∧ (buildVarList d).getD i "" = nm := by
    intro nm i hl
    have hmem : (nm, i) ∈ d := lookupVar_mem d nm i hl
    have hilt : i < d.length := entry_snd_lt d hsnd hmem
    refine ⟨by rw [hlen]; exact hilt, ?_⟩
    rw [hgetD i hilt]
    have := entry_getD_snd d hsnd hmem
    rw [this]
  refine ⟨hlen, hfwd, ?_, ?_⟩
  · intro i hi
    rw [hlen] at hi
    have hpmem : d.getD i ("", 0) ∈ d := by
      rw [List.getD_eq_getElem _ _ hi]
      exact List.getElem_mem hi
    have hsnd_i := getD_snd_eq d hsnd i hi
    have := lookupVar_of_mem d hnodup (d.getD i ("", 0)) hpmem
    rw [hgetD i hi, this, hsnd_i]
  · intro n1 n2 i h1 h2
    obtain ⟨-, e1⟩ := hfwd n1 i h1
    obtain ⟨-, e2⟩ := hfwd n2 i h2
    rw [← e1, ← e2]

/-! ## The Newton loop of Circuit.solve (Circuit.py lines 188-241)

The claims about Circuit.solve concern its control flow: when it returns,
when it raises, and what runs between convergence tests.  The linear-system
contents are held abstract: a state type σ carries the system and all
component state, linSolve is self.__linear_system.solve(), xAbsSum reads
sum(abs(x)) from the current solution, and each nonlinear component
contributes its calculate_dc_bias_error, update_state and
update_linear_system as functions of the state. -/

/-- One nonlinear component (a Diode) as Circuit.solve uses it. -/
structure NLComp (σ : Type) where
biasError : σ → ℚ
update_state : σ → σ
update_linear_system : σ → σ

/-- The circuit as Circuit.solve sees it. -/
structure SolveEnv (σ : Type) where
linSolve : σ → σ
xAbsSum : σ → ℚ
non_linear : List (NLComp σ)

/-- CircuitComponents.sum_non_linear_error (lines 85-91): total of
abs(calculate_dc_bias_error) over the non_linear list. -/
def sum_non_linear_error {σ : Type} (env : SolveEnv σ) (s : σ) : ℚ :=
  env.non_linear.foldl (fun err c => err + |c.biasError s|) 0

/-- The restamping pass of lines 227-232: for each nonlinear component in
declared order, update_state then update_linear_system. -/
def restampNonLinear {σ : Type} (env : SolveEnv σ) (s : σ) : σ :=
  env.non_linear.foldl (fun st c => c.update_linear_system (c.update_state st)) s

/-- The while-loop of Circuit.solve (lines 206-241), with fuel
max_iter − num_iter: compute err and max_err, return on err < max_err,
otherwise restamp every nonlinear component, re-solve and recur; with fuel
exhausted, raise the non-convergence Exception (modelled as .error ()). -/
def solveIter {σ : Type} (env : SolveEnv σ) : ℕ → σ → Except Unit σ
  | 0, _ => .error ()
  | fuel + 1, s =>
      let err := sum_non_linear_error env s
      let norm := env.xAbsSum s
      let max_err := norm * (1 / 1000)
      let max_err2 := if max_err < 1 / 1000000 then 1 / 1000000 else max_err
      if err < max_err2 then .ok s
      else solveIter env fuel (env.linSolve (restampNonLinear env s))

/-- Circuit.solve: one initial linear solve, then the iteration loop. -/
def Circuit.solve {σ : Type} (env : SolveEnv σ) (max_iter : ℕ) (s : σ) : Except Unit σ :=
  solveIter env max_iter (env.linSolve s)

/-- The convergence test as the claim states it:
err < max(1e-6, 1e-3·Σ|x_i|). -/
def convTest {σ : Type} (env : SolveEnv σ) (s : σ) : Prop :=
  sum_non_linear_error env s < max (1 / 1000000) (1 / 1000 * env.xAbsSum s)

/-- The source's clamped tolerance (max_err = norm*1e-3 raised to 1e-6 when
below it) equals the claim's max(1e-6, 1e-3·norm). -/
theorem maxerr_eq (norm : ℚ) :
    (if norm * (1 / 1000) < 1 / 1000000 then 1 / 1000000 else norm * (1 / 1000)) =
      max (1 / 1000000) (1 / 1000 * norm) := by
  rw [mul_comm norm (1 / 1000)]
  rcases le_or_lt ((1 : ℚ) / 1000000) (1 / 1000 * norm) with h | h
  · rw [if_neg (not_lt.mpr h), max_eq_right h]
  · rw [if_pos h, max_eq_left h.le]

theorem solveIter_succ_conv {σ : Type} (env : SolveEnv σ) (fuel : ℕ) (s : σ)
    (hc : convTest env s) : solveIter env (fuel + 1) s = .ok s := by
  simp only [solveIter]
  rw [maxerr_eq (env.xAbsSum s)]
  exact if_pos hc

theorem solveIter_succ_not {σ : Type} (env : SolveEnv σ) (fuel : ℕ) (s : σ)
    (hc : ¬convTest env s) :
    solveIter env (fuel + 1) s =
      solveIter env fuel (env.linSolve (restampNonLinear env s)) := by
  simp only [solveIter]
  rw [maxerr_eq (env.xAbsSum s)]
  exact if_neg hc

/-- The Newton iterates: newtonSeq s k is the state after k further rounds
of (restamp all nonlinear components; linear solve) from s. -/
def newtonSeq {σ : Type} (env : SolveEnv σ) : σ → ℕ → σ
  | s, 0 => s
  | s, k + 1 => newtonSeq env (env.linSolve (restampNonLinear env s)) k

theorem solveIter_spec {σ : Type} (env : SolveEnv σ) :
    ∀ (fuel : ℕ) (s : σ),
      (solveIter env fuel s = .error () ↔
        ∀ k, k < fuel → ¬convTest env (newtonSeq env s k)) ∧
      (∀ s', solveIter env fuel s = .ok s' ↔
        ∃ k, k < fuel ∧ s' = newtonSeq env s k ∧ convTest env (newtonSeq env s k) ∧
          ∀ j, j < k → ¬convTest env (newtonSeq env s j)) := by
  intro fuel
  induction fuel with
  | zero =>
      intro s
      refine ⟨by simp [solveIter], fun s' => ?_⟩
      simp [solveIter]
  | succ fuel ih =>
      intro s
      by_cases hc : convTest env s
      · rw [solveIter_succ_conv env fuel s hc]
        constructor
        · constructor
          · intro h; cases h
          · intro h
            exact absurd hc (by simpa [newtonSeq] using h 0 (Nat.succ_pos fuel))
        · intro s'
          constructor
          · intro h
            obtain rfl : s = s' := by injection h
            exact ⟨0, Nat.succ_pos fuel, rfl, hc, by omega⟩
          · rintro ⟨k, -, rfl, -, hmin⟩
            cases k with
            | zero => rfl
            | succ k => exact absurd hc (by simpa [newtonSeq] using hmin 0 (Nat.succ_pos k))
      · rw [solveIter_succ_not env fuel s hc]
        obtain ⟨ihe, iho⟩ := ih (env.linSolve (restampNonLinear env s))
        constructor
        · rw [ihe]
          constructor
          · intro h k hk
            cases k with
            | zero => simpa [newtonSeq] using hc
            | succ k => exact (by simpa [newtonSeq] using h k (by omega))
          · intro h k hk
            have := h (k + 1) (by omega)
            simpa [newtonSeq] using this
        · intro s'
          rw [iho s']
          constructor
          · rintro ⟨k, hk, rfl, hconv, hmin⟩
            refine ⟨k + 1, by omega, by simp [newtonSeq], by simpa [newtonSeq] using hconv, ?_⟩
            intro j hj
            cases j with
            | zero => simpa [newtonSeq] using hc
            | succ j => exact (by simpa [newtonSeq] using hmin j (by omega))
          · rintro ⟨k, hk, rfl, hconv, hmin⟩
            cases k with
            | zero => exact absurd (by simpa [newtonSeq] using hconv) hc
            | succ k =>
                refine ⟨k, by omega, by simp [newtonSeq], by simpa [newtonSeq] using hconv, ?_⟩
                intro j hj
                have := hmin (j + 1) (by omega)
                simpa [newtonSeq] using this

/-- C1: Circuit.solve returns the first Newton iterate (after the initial
linear solve) whose summed absolute diode bias error is strictly below
max(1e-6, 1e-3·Σ|x_i|), and raises the non-convergence error exactly when
this test fails on every one of the max_iter iterations; between
consecutive tests every nonlinear component receives update_state then
update_linear_system in declared order (restampNonLinear), followed by one
linear solve (the step of newtonSeq). -/
theorem solve_newton_loop_spec {σ : Type} (env : SolveEnv σ) (max_iter : ℕ) (s0 : σ) :
    (Circuit.solve env max_iter s0 = .error () ↔
      ∀ k, k < max_iter → ¬convTest env (newtonSeq env (env.linSolve s0) k)) ∧
      (∀ s', Circuit.solve env max_iter s0 = .ok s' ↔
        ∃ k, k < max_iter ∧ s' = newtonSeq env (env.linSolve s0) k ∧
          convTest env (newtonSeq env (env.linSolve s0) k) ∧
          ∀ j, j < k → ¬convTest env (newtonSeq env (env.linSolve s0) j)) :=
  solveIter_spec env max_iter (env.linSolve s0)

/-- C10: with no diodes, the summed nonlinear error is 0, strictly below the
tolerance (which is at least 1e-6), so Circuit.solve with max_iter ≥ 1
returns after exactly one linear solve; and with max_iter = 0 the very same
call raises the non-convergence error even though the circuit is linear. -/
theorem linear_circuit_single_solve {σ : Type} (env : SolveEnv σ) (s0 : σ)
    (max_iter : ℕ) (hnl : env.non_linear = []) (hmi : 1 ≤ max_iter) :
    Circuit.solve env max_iter s0 = .ok (env.linSolve s0) ∧
      Circuit.solve env 0 s0 = .error () := by
  refine ⟨?_, rfl⟩
  obtain ⟨m, rfl⟩ : ∃ m, max_iter = m + 1 := ⟨max_iter - 1, by omega⟩
  have hzero : sum_non_linear_error env (env.linSolve s0) = 0 := by
    simp [sum_non_linear_error, hnl]
  have hconv : convTest env (env.linSolve s0) := by
    rw [convTest, hzero]
    exact lt_max_iff.mpr (Or.inl (by norm_num))
  exact solveIter_succ_conv env m (env.linSolve s0) hconv

/-- A one-variable linear "circuit" over state ℕ: no nonlinear components,
an abstract solver, and Σ|x| read as the state itself. -/
def natNewtonEnv : SolveEnv ℕ :=
  { linSolve := Nat.succ, xAbsSum := fun n => (n : ℚ), non_linear := [] }

/-- C10 instantiated: one solve and success at max_iter = 1; the
non-convergence error at max_iter = 0. -/
theorem linear_circuit_single_solve_app :
    Circuit.solve natNewtonEnv 1 0 = .ok (natNewtonEnv.linSolve 0) ∧
      Circuit.solve natNewtonEnv 0 0 = .error () :=
  linear_circuit_single_solve natNewtonEnv 0 1 rfl (by norm_num)

/-! ## Circuit.continue_transient_simulation (Circuit.py lines 331-406)

The loop's time bookkeeping and recording are embedded concretely over ℚ;
the linear system, the component states and the recorded series live in an
abstract state σ acted on by the solve / record / LC-update / modified-
restamp calls.  The local variable time_step of the Python function (ts
below) is fixed for the whole call; the mutable
analysis_description.time_step is the desc_ts field of the state. -/

/-- The abstract per-call operations of the transient loop, each receiving
the current analysis_description.time_step. -/
structure TransComp (σ : Type) where
solveFn : ℚ → σ → σ
recordFn : σ → σ
lcFn : ℚ → σ → σ
modFn : ℚ → σ → σ

/-- The mutable state of the loop: simulation time t, the description's
time_step, the recorded timestamps, and the abstract rest. -/
structure TransState (σ : Type) where
t : ℚ
desc_ts : ℚ
time_stamps : List ℚ
sys : σ
deriving DecidableEq

/-- One pass of the while-body (lines 365-404): solve, record when
start_record_time ≤ t, update the LC components, then the three-way
end-time clamping that adjusts t and the description's time_step. -/
def transientBody {σ : Type} (env : TransComp σ) (srt endt ts : ℚ)
    (st : TransState σ) : TransState σ :=
  let sys1 := env.solveFn st.desc_ts st.sys
  let stamps := if srt ≤ st.t then st.time_stamps ++ [st.t] else st.time_stamps
  let sys2 := if srt ≤ st.t then env.recordFn sys1 else sys1
  let sys3 := env.lcFn st.desc_ts sys2
  if st.t + 2 * ts < endt then
    { t := st.t + ts, desc_ts := st.desc_ts, time_stamps := stamps, sys := sys3 }
  else if endt ≤ st.t + ts then
    { t := endt, desc_ts := endt - st.t, time_stamps := stamps, sys := sys3 }
  else
    { t := st.t + (endt - st.t) / 2, desc_ts := (endt - st.t) / 2,
      time_stamps := stamps, sys := sys3 }

/-- The while-loop `while self.__t < end_time`, with fuel. -/
def transientLoop {σ : Type} (env : TransComp σ) (srt endt ts : ℚ) :
    ℕ → TransState σ → Option (TransState σ)
  | 0, st => if st.t < endt then none else some st
  | fuel + 1, st =>
      if st.t < endt then
        transientLoop env srt endt ts fuel (transientBody env srt endt ts st)
      else some st

/-- Circuit.continue_transient_simulation: end_time = t + run_time, restamp
the modified components once, then run the loop. -/
def Circuit.continue_transient_simulation {σ : Type} (env : TransComp σ)
    (srt run_time ts : ℚ) (fuel : ℕ) (st : TransState σ) : Option (TransState σ) :=
  transientLoop env srt (st.t + run_time) ts fuel { st with sys := env.modFn ts st.sys }

/-- The end-time clamping exactly as the claim words it, as a map from
(t, analysis time_step) to their new values. -/
def clampSpec (t dts endt ts : ℚ) : ℚ × ℚ :=
  if t + 2 * ts < endt then (t + ts, dts)
  else if endt ≤ t + ts then (endt, endt - t)
  else (t + (endt - t) / 2, (endt - t) / 2)

theorem transientBody_clamp {σ : Type} (env : TransComp σ) (srt endt ts : ℚ)
    (st : TransState σ) :
    ((transientBody env srt endt ts st).t, (transientBody env srt endt ts st).desc_ts) =
      clampSpec st.t st.desc_ts endt ts := by
  simp only [transientBody, clampSpec]
  split_ifs <;> rfl

theorem transientBody_stamps {σ : Type} (env : TransComp σ) (srt endt ts : ℚ)
    (st : TransState σ) :
    (transientBody env srt endt ts st).time_stamps =
      if srt ≤ st.t then st.time_stamps ++ [st.t] else st.time_stamps := by
  simp only [transientBody]
  split_ifs <;> rfl

theorem transientLoop_succ {σ : Type} (env : TransComp σ) (srt endt ts : ℚ)
    (fuel : ℕ) (st : TransState σ) :
    transientLoop env srt endt ts (fuel + 1) st =
      if st.t < endt then
        transientLoop env srt endt ts fuel (transientBody env srt endt ts st)
      else some st := rfl

theorem transientLoop_done {σ : Type} (env : TransComp σ) (srt endt ts : ℚ)
    (fuel : ℕ) (st : TransState σ) (h : ¬st.t < endt) :
    transientLoop env srt endt ts fuel st = some st := by
  cases fuel with
  | zero => rw [transientLoop, if_neg h]
  | succ fuel => rw [transientLoop_succ, if_neg h]

theorem transientLoop_terminates {σ : Type} (env : TransComp σ) (srt ts endt : ℚ)
    (hts : 0 < ts) :
    ∀ (fuel : ℕ) (st : TransState σ), st.t ≤ endt → endt - st.t ≤ ts * fuel →
      ∃ st', transientLoop env srt endt ts (fuel + 1) st = some st' ∧ st'.t = endt := by
  intro fuel
  induction fuel with
  | zero =>
      intro st hle hbound
      have hteq : st.t = endt := by
        simp only [Nat.cast_zero, mul_zero] at hbound
        linarith
      refine ⟨st, transientLoop_done env srt endt ts 1 st (by rw [hteq]; exact lt_irrefl _), hteq⟩
  | succ fuel ih =>
      intro st hle hbound
      push_cast at hbound
      by_cases hlt : st.t < endt
      · rw [transientLoop_succ, if_pos hlt]
        have hclamp := transientBody_clamp env srt endt ts st
        by_cases h1 : st.t + 2 * ts < endt
        · rw [clampSpec, if_pos h1] at hclamp
          have ht1 : (transientBody env srt endt ts st).t = st.t + ts :=
            congrArg Prod.fst hclamp
          exact ih (transientBody env srt endt ts st)
            (by rw [ht1]; linarith) (by rw [ht1]; linarith)
        · by_cases h2 : endt ≤ st.t + ts
          · rw [clampSpec, if_neg h1, if_pos h2] at hclamp
            have ht1 : (transientBody env srt endt ts st).t = endt :=
              congrArg Prod.fst hclamp
            refine ⟨transientBody env srt endt ts st,
              transientLoop_done env srt endt ts (fuel + 1) _
                (by rw [ht1]; exact lt_irrefl _), ht1⟩
          · rw [clampSpec, if_neg h1, if_neg h2] at hclamp
            have ht1 : (transientBody env srt endt ts st).t = st.t + (endt - st.t) / 2 :=
              congrArg Prod.fst hclamp
            set st1 := transientBody env srt endt ts st with hst1
            have hlt1 : st1.t < endt := by rw [ht1]; linarith
            have hclamp1 := transientBody_clamp env srt endt ts st1
            have hcond1 : ¬st1.t + 2 * ts < endt := by rw [ht1]; push_neg at h1; linarith
            have hcond2 : endt ≤ st1.t + ts := by rw [ht1]; push_neg at h1; linarith
            rw [clampSpec, if_neg hcond1, if_pos hcond2] at hclamp1
            have ht2 : (transientBody env srt endt ts st1).t = endt :=
              congrArg Prod.fst hclamp1
            rw [transientLoop_succ, if_pos hlt1]
            refine ⟨transientBody env srt endt ts st1,
              transientLoop_done env srt endt ts fuel _
                (by rw [ht2]; exact lt_irrefl _), ht2⟩
      · refine ⟨st, transientLoop_done env srt endt ts (fuel + 2) st hlt, by linarith⟩

/-- C2: each iteration of continue_transient_simulation ends by advancing
time exactly as the three-way clamp states (normal step with the analysis
time_step untouched; final step setting it to end_time − t and landing
exactly on end_time; otherwise a half-of-the-remaining-time step), and with
run_time > 0 and time_step > 0 the loop terminates with the simulation time
exactly end_time = t₀ + run_time. -/
theorem transient_clamp_and_termination {σ : Type} (env : TransComp σ)
    (srt run_time ts : ℚ) (st : TransState σ) (hts : 0 < ts) (hrt : 0 < run_time) :
    (∀ st0 : TransState σ,
      ((transientBody env srt (st.t + run_time) ts st0).t,
        (transientBody env srt (st.t + run_time) ts st0).desc_ts) =
        clampSpec st0.t st0.desc_ts (st.t + run_time) ts) ∧
      ∃ fuel st',
        Circuit.continue_transient_simulation env srt run_time ts fuel st = some st' ∧
          st'.t = st.t + run_time := by
  refine ⟨fun st0 => transientBody_clamp env srt (st.t + run_time) ts st0, ?_⟩
  obtain ⟨n, hn⟩ := exists_nat_ge (run_time / ts)
  have hrun : run_time ≤ ts * n := by
    rw [div_le_iff₀ hts] at hn
    linarith
  obtain ⟨st', hloop, hend⟩ := transientLoop_terminates env srt ts (st.t + run_time) hts n
    { st with sys := env.modFn ts st.sys } (by simp; linarith) (by simp; linarith)
  exact ⟨n + 1, st', hloop, hend⟩

/-- The trivial abstract state: every external operation is the identity. -/
def unitTransEnv : TransComp Unit :=
  { solveFn := fun _ _ => (), recordFn := fun _ => (), lcFn := fun _ _ => (),
    modFn := fun _ _ => () }

/-- A starting transient state at t = 0 with no recorded samples. -/
def exTransState : TransState Unit :=
  { t := 0, desc_ts := 1 / 3, time_stamps := [], sys := () }

/-- C2 instantiated: run_time 1 and time_step 1/3 from t = 0 terminate
exactly at 1, with the clamp agreement. -/
theorem transient_clamp_and_termination_app :
    (∀ st0 : TransState Unit,
      ((transientBody unitTransEnv 0 (exTransState.t + 1) (1 / 3) st0).t,
        (transientBody unitTransEnv 0 (exTransState.t + 1) (1 / 3) st0).desc_ts) =
        clampSpec st0.t st0.desc_ts (exTransState.t + 1) (1 / 3)) ∧
      ∃ fuel st',
        Circuit.continue_transient_simulation unitTransEnv 0 1 (1 / 3) fuel exTransState =
            some st' ∧
          st'.t = exTransState.t + 1 :=
  transient_clamp_and_termination unitTransEnv 0 1 (1 / 3) exTransState
    (by norm_num) (by norm_num)

theorem transientLoop_stamps {σ : Type} (env : TransComp σ) (srt endt ts : ℚ) :
    ∀ (fuel : ℕ) (st st' : TransState σ),
      transientLoop env srt endt ts fuel st = some st' →
      ∀ x ∈ st'.time_stamps, x ∈ st.time_stamps ∨ (srt ≤ x ∧ x < endt) := by
  intro fuel
  induction fuel with
  | zero =>
      intro st st' h x hx
      rw [transientLoop] at h
      by_cases hc : st.t < endt
      · rw [if_pos hc] at h; cases h
      · rw [if_neg hc] at h
        injection h with h
        exact Or.inl (h ▸ hx)
  | succ fuel ih =>
      intro st st' h x hx
      rw [transientLoop_succ] at h
      by_cases hc : st.t < endt
      · rw [if_pos hc] at h
        rcases ih _ _ h x hx with hmem | hwin
        · rw [transientBody_stamps] at hmem
          by_cases hr : srt ≤ st.t
          · rw [if_pos hr] at hmem
            rcases List.mem_append.mp hmem with hmem2 | hx2
            · exact Or.inl hmem2
            · have hxt : x = st.t := List.mem_singleton.mp hx2
              exact Or.inr ⟨hxt ▸ hr, hxt ▸ hc⟩
          · rw [if_neg hr] at hmem
            exact Or.inl hmem
        · exact Or.inr hwin
      · rw [if_neg hc] at h
        injection h with h
        exact Or.inl (h ▸ hx)

/-- C9: during one continue_transient_simulation call with end_time =
t₀ + run_time, every recorded timestamp x that was not already present
satisfies start_record_time ≤ x < end_time: nothing is recorded before
start_record_time, and the solution at end_time itself is never recorded by
this call. -/
theorem transient_record_window {σ : Type} (env : TransComp σ)
    (srt run_time ts : ℚ) (fuel : ℕ) (st st' : TransState σ)
    (h : Circuit.continue_transient_simulation env srt run_time ts fuel st = some st') :
    ∀ x ∈ st'.time_stamps,
      x ∈ st.time_stamps ∨ (srt ≤ x ∧ x < st.t + run_time) := by
  intro x hx
  have hres := transientLoop_stamps env srt (st.t + run_time) ts fuel
    { st with sys := env.modFn ts st.sys } st' h x hx
  simpa using hres

/-- C9 instantiated: in the run of run_time 1, time_step 1/3 from t = 0, the
recorded timestamp 2/3 lies in [start_record_time, end_time). -/
theorem transient_record_window_app :
    (2 / 3 : ℚ) ∈ exTransState.time_stamps ∨
      (0 ≤ (2 / 3 : ℚ) ∧ (2 / 3 : ℚ) < exTransState.t + 1) :=
  transient_record_window unitTransEnv 0 1 (1 / 3) 4 exTransState
    ⟨1, 1 / 3, [0, 1 / 3, 2 / 3], ()⟩
    (by norm_num [Circuit.continue_transient_simulation, transientLoop,
      transientBody, unitTransEnv, exTransState])
    (2 / 3) (by simp)

end CircuitSim
